import Mathlib

/-!
Verification of the xml-skimmer library: a shallow embedding of the
streaming XML tokenizer (`skim_xml` in src/lib.rs) and of the CSS-style
selector language (`src/selector.rs`), together with theorems settling the
specification claims.

Text is modelled as `List Char` (Rust `String` / `&str` slices of chars);
Rust's `HashMap<String, _>` fields are modelled as association lists with
unique keys where `insert` replaces the previous binding of a key, and
`HashSet<String>` as a duplicate-free list.  Rust panics are modelled as a
distinct `panicked` outcome.
-/

/-- Rust `char::is_whitespace`: the Unicode `White_Space` property. -/
def rustIsWhitespace (c : Char) : Bool :=
  (decide (9 ≤ c.toNat) && decide (c.toNat ≤ 13)) || decide (c.toNat = 32) ||
  decide (c.toNat = 0x85) || decide (c.toNat = 0xA0) || decide (c.toNat = 0x1680) ||
  (decide (0x2000 ≤ c.toNat) && decide (c.toNat ≤ 0x200A)) ||
  decide (c.toNat = 0x2028) || decide (c.toNat = 0x2029) ||
  decide (c.toNat = 0x202F) || decide (c.toNat = 0x205F) || decide (c.toNat = 0x3000)

/-- Rust `char::is_ascii_punctuation`. -/
def rustIsAsciiPunct (c : Char) : Bool :=
  (decide (0x21 ≤ c.toNat) && decide (c.toNat ≤ 0x2F)) ||
  (decide (0x3A ≤ c.toNat) && decide (c.toNat ≤ 0x40)) ||
  (decide (0x5B ≤ c.toNat) && decide (c.toNat ≤ 0x60)) ||
  (decide (0x7B ≤ c.toNat) && decide (c.toNat ≤ 0x7E))

/-- The single-quote character, written by code point to keep sources tidy. -/
def singleQuote : Char := Char.ofNat 39

/-- Association-list lookup, modelling `HashMap::get` (keys are unique). -/
def lookupA {β : Type} : List (List Char × β) → List Char → Option β
  | [], _ => none
  | (k, v) :: rest, key => if k = key then some v else lookupA rest key

/-- Association-list insert, modelling `HashMap::insert`: a duplicate key
overwrites the previous value (last write wins). -/
def insertA {β : Type} (m : List (List Char × β)) (key : List Char) (v : β) :
    List (List Char × β) :=
  m.filter (fun p => decide (p.1 ≠ key)) ++ [(key, v)]

/-- `HashSet::insert` on a duplicate-free list: duplicates are dropped. -/
def insertS (s : List (List Char)) (x : List Char) : List (List Char) :=
  if x ∈ s then s else s ++ [x]

/-- Rust `str::split(sep)` on chars: `n` separators yield `n + 1` pieces;
the empty string yields one empty piece. -/
def splitAllChar (sep : Char) : List Char → List (List Char)
  | [] => [[]]
  | c :: rest =>
    let r := splitAllChar sep rest
    if c = sep then [] :: r
    else
      match r with
      | [] => [[c]]
      | s :: ss => (c :: s) :: ss

/-- Join a token list with a separator character (left inverse of
`splitAllChar` used to state what the class tokens reassemble to). -/
def joinChar (sep : Char) : List (List Char) → List Char
  | [] => []
  | [s] => s
  | s :: rest => s ++ sep :: joinChar sep rest

/-- One parsed element occurrence: tag name and attribute map (lib.rs `ParsedNode`). -/
structure ParsedNode where
  tag : List Char
  attributes : List (List Char × List Char)
deriving DecidableEq

/-- The literal key of the `class` attribute. -/
def classKey : List Char := ['c', 'l', 'a', 's', 's']

/-- The literal key of the `id` attribute. -/
def idKey : List Char := ['i', 'd']

/-- `ParsedNode::class_list`: the `class` attribute value split on spaces
(`HashSet` collect modelled as the token list; membership is what matching uses). -/
def ParsedNode.class_list (n : ParsedNode) : List (List Char) :=
  match lookupA n.attributes classKey with
  | some list => splitAllChar ' ' list
  | none => []

/-- Selector combinators (selector.rs `Combinator`). -/
inductive Combinator where
  | Child
  | Descendant
deriving DecidableEq

/-- A CSS-style selector chain (selector.rs `Selector`): a simple selector
(optional tag, optional id, class set, attribute map where `none` means
presence-only) plus an optional owned parent chain with its combinator. -/
inductive Selector where
  | mk (tag : Option (List Char)) (id : Option (List Char))
       (classes : List (List Char))
       (attributes : List (List Char × Option (List Char)))
       (parent : Option (Selector × Combinator)) : Selector

def Selector.tag : Selector → Option (List Char)
  | .mk t _ _ _ _ => t

def Selector.id : Selector → Option (List Char)
  | .mk _ i _ _ _ => i

def Selector.classes : Selector → List (List Char)
  | .mk _ _ cl _ _ => cl

def Selector.attributes : Selector → List (List Char × Option (List Char))
  | .mk _ _ _ ats _ => ats

def Selector.parent : Selector → Option (Selector × Combinator)
  | .mk _ _ _ _ par => par

/-- The selector with no constraints (`Selector::default()`). -/
def Selector.empty : Selector := .mk none none [] [] none

/-- `Selector::match_simple`: match one simple selector against one node,
ignoring combinators. -/
def Selector.match_simple (sel : Selector) (node : ParsedNode) : Bool :=
  (match sel.tag with
   | some tg => decide (node.tag = tg)
   | none => true) &&
  (match lookupA node.attributes idKey, sel.id with
   | some nodeId, some selId => decide (nodeId = selId)
   | none, some _ => false
   | _, _ => true) &&
  sel.classes.all (fun cl => decide (cl ∈ node.class_list)) &&
  sel.attributes.all (fun a =>
    match a.2 with
    | some attrVal =>
      match lookupA node.attributes a.1 with
      | some nodeAttrVal => decide (nodeAttrVal = attrVal)
      | none => false
    | none => (lookupA node.attributes a.1).isSome)

/-- The inner `while` of the `Descendant` arm of `Selector::match_node`:
advance the (already reversed) node iterator until a node satisfies the
simple selector, returning the iterator's remainder, or `none` if exhausted. -/
def dropUntilMatch (sel : Selector) : List ParsedNode → Option (List ParsedNode)
  | [] => none
  | n :: rest => if sel.match_simple n then some rest else dropUntilMatch sel rest

/-- The loop of `Selector::match_node`, one parent step unrolled: `nodes` is
the remainder of `stack.iter().rev()` and `comb` the pending combinator
(`none` on the very first iteration, which behaves like `Child`). -/
def Selector.matchFrom : Selector → Option Combinator → List ParsedNode → Bool
  | .mk t i cl ats none, some .Descendant, nodes =>
    (dropUntilMatch (.mk t i cl ats none) nodes).isSome
  | .mk t i cl ats (some (p, cmb)), some .Descendant, nodes =>
    (match dropUntilMatch (.mk t i cl ats (some (p, cmb))) nodes with
     | none => false
     | some rest => p.matchFrom (some cmb) rest)
  | .mk t i cl ats none, _, nodes =>
    (match nodes with
     | [] => false
     | n :: _ => (Selector.mk t i cl ats none).match_simple n)
  | .mk t i cl ats (some (p, cmb)), _, nodes =>
    (match nodes with
     | [] => false
     | n :: rest =>
       (Selector.mk t i cl ats (some (p, cmb))).match_simple n &&
         p.matchFrom (some cmb) rest)

/-- `Selector::match_node`: match the chain against the ancestor stack
(root first, current node last); the stack is walked from its tail. -/
def Selector.match_node (sel : Selector) (stack : List ParsedNode) : Bool :=
  sel.matchFrom none stack.reverse

/-- `CommaSeparated::<Selector>::match_node`: true if any chain of the group
matches (first success short-circuits). -/
def CommaSeparated.match_node (sels : List Selector) (stack : List ParsedNode) : Bool :=
  sels.any (fun s => s.match_node stack)

/-- Selector parse errors (selector.rs `SelectorParseError`); `UnknownPrefix`
in the source is rendered `UnknownPrefixChar` here. -/
inductive SelectorParseError where
  | MultipleTags
  | MultipleIDs
  | EmptyToken
  | UnknownPrefixChar
  | UnclosedString
  | UnclosedBracket
  | NoOtherSideCombinator
  | BadChar
  | WhiteSpace
  | EmptyString
deriving DecidableEq

/-- Where the characters of the current token are pushed (selector.rs `PushTo`). -/
inductive PushTo where
  | Tag
  | Id
  | Classes
  | AttrName
deriving DecidableEq

/-- `PushTo::new`. -/
def PushTo.ofChar (c : Char) : PushTo :=
  if c = '#' then .Id
  else if c = '.' then .Classes
  else if c = '[' then .AttrName
  else .Tag

/-- The local `push` function of `Selector::from_str`: commit the buffered
token to the part of the selector `pt` designates. -/
def pushTok (pt : PushTo) (sel : Selector) (buf : List Char) :
    Except SelectorParseError Selector :=
  match pt, sel with
  | .Tag, .mk t i cl ats par =>
    if buf = [] then .ok (.mk t i cl ats par)
    else
      match t with
      | some _ => .error .MultipleTags
      | none => .ok (.mk (some buf) i cl ats par)
  | .Id, .mk t i cl ats par =>
    (match i with
     | some _ => .error .MultipleIDs
     | none =>
       if buf ≠ [] then .ok (.mk t (some buf) cl ats par)
       else .error .EmptyToken)
  | .Classes, .mk t i cl ats par =>
    if buf ≠ [] then .ok (.mk t i (insertS cl buf) ats par)
    else .error .EmptyToken
  | .AttrName, _ => .error .UnclosedBracket

/-- Skip leading whitespace; return the first non-whitespace character (if
any) and the characters after it (the `while` before an attribute value). -/
def skipWs : List Char → Option Char × List Char
  | [] => (none, [])
  | c :: rest => if rustIsWhitespace c then skipWs rest else (some c, rest)

/-- Scan for the closing occurrence of `q`, collecting the characters before
it: returns (found, collected, remainder). -/
def scanTilChar (q : Char) : List Char → Bool × List Char × List Char
  | [] => (false, [], [])
  | c :: rest =>
    if c = q then (true, [], rest)
    else
      let r := scanTilChar q rest
      (r.1, c :: r.2.1, r.2.2)

/-- The "also find `]`" loop: only whitespace may precede the closing
bracket; any other character is a `BadChar` error. -/
def findBracketWs : List Char → Except SelectorParseError (Bool × List Char)
  | [] => .ok (false, [])
  | c :: rest =>
    if c = ']' then .ok (true, rest)
    else if rustIsWhitespace c then findBracketWs rest
    else .error .BadChar

/-- Scan a bare (unquoted) attribute value: stop at whitespace (bracket not
yet found) or at `]` (bracket found); returns (foundBracket, value, rest). -/
def scanBareVal : List Char → Bool × List Char × List Char
  | [] => (false, [], [])
  | c :: rest =>
    if rustIsWhitespace c then (false, [], rest)
    else if c = ']' then (true, [], rest)
    else
      let r := scanBareVal rest
      (r.1, c :: r.2.1, r.2.2)

/-- The `=` arm of `Selector::from_str` inside a bracket: parse the attribute
value (bare or quoted) up to and including the closing `]`; returns the
value and the remaining characters. -/
def scanAttrValue (chars : List Char) :
    Except SelectorParseError (List Char × List Char) :=
  match skipWs chars with
  | (none, _) => .error .UnclosedBracket
  | (some c, rest) =>
    if c = '"' ∨ c = singleQuote then
      let s := scanTilChar c rest
      match findBracketWs s.2.2 with
      | .error e => .error e
      | .ok (fb, r2) =>
        if ¬ s.1 then .error .UnclosedString
        else if ¬ fb then .error .UnclosedBracket
        else .ok (s.2.1, r2)
    else if c = ']' ∨ c = '=' then .error .BadChar
    else
      let s := scanBareVal rest
      if s.1 then .ok (c :: s.2.1, s.2.2)
      else
        match findBracketWs s.2.2 with
        | .error e => .error e
        | .ok (fb2, r2) =>
          if fb2 then .ok (c :: s.2.1, r2) else .error .UnclosedBracket

/-- The whitespace arm of `Selector::from_str`: look for a `>` combinator
inside the whitespace run; return the first character of the next simple
selector (if any), the combinator, and the remainder.  A second `>` is an
error (combinators cannot be prefixes). -/
def scanCombinator : List Char → Combinator →
    Except SelectorParseError (Option Char × Combinator × List Char)
  | [], comb => .ok (none, comb, [])
  | c :: rest, comb =>
    if c = '>' then
      if comb = .Descendant then scanCombinator rest .Child
      else .error .UnknownPrefixChar
    else if rustIsWhitespace c then scanCombinator rest comb
    else .ok (some c, comb, rest)

/-- Update the attribute map of a selector. -/
def Selector.setAttrs (sel : Selector) (ats : List (List Char × Option (List Char))) :
    Selector :=
  match sel with
  | .mk t i cl _ par => .mk t i cl ats par

/-- The main loop of `Selector::from_str`, structurally recursive on a fuel
bounding the number of characters left (each step consumes at least one). -/
def fromStrFuel : Nat → List Char → Selector → PushTo → List Char →
    Except SelectorParseError Selector
  | 0, _, _, _, _ => .error .BadChar
  | _ + 1, [], sel, pt, buf => pushTok pt sel buf
  | fuel + 1, c :: rest, sel, pt, buf =>
    if c = '#' ∨ c = '.' ∨ c = '[' then
      match pushTok pt sel buf with
      | .error e => .error e
      | .ok s => fromStrFuel fuel rest s (PushTo.ofChar c) []
    else if c = '=' then
      match pt with
      | .AttrName =>
        if buf = [] then .error .EmptyToken
        else
          match scanAttrValue rest with
          | .error e => .error e
          | .ok (val, rem) =>
            fromStrFuel fuel rem (sel.setAttrs (insertA sel.attributes buf (some val)))
              .Tag []
      | _ => .error .BadChar
    else if c = ']' then
      match pt with
      | .AttrName =>
        if buf = [] then .error .EmptyToken
        else
          fromStrFuel fuel rest (sel.setAttrs (insertA sel.attributes buf none)) .Tag []
      | _ => .error .BadChar
    else if rustIsWhitespace c then
      if pt = .AttrName then fromStrFuel fuel rest sel pt buf
      else
        match pushTok pt sel buf with
        | .error e => .error e
        | .ok s =>
          match scanCombinator rest .Descendant with
          | .error e => .error e
          | .ok (none, .Descendant, _) => .ok s
          | .ok (none, .Child, _) => .error .NoOtherSideCombinator
          | .ok (some c2, comb, rem) =>
            let pt2 := PushTo.ofChar c2
            fromStrFuel fuel rem (.mk none none [] [] (some (s, comb))) pt2
              (if pt2 = .Tag then [c2] else [])
    else if rustIsAsciiPunct c ∧ c ≠ '-' ∧ c ≠ '_' then .error .UnknownPrefixChar
    else fromStrFuel fuel rest sel pt (buf ++ [c])

/-- `Selector::from_str`: empty-string check on the raw input, then
`trim_start`, then the character loop starting in `Tag` mode. -/
def Selector.fromStr (s : List Char) : Except SelectorParseError Selector :=
  if s = [] then .error .EmptyString
  else
    let t := s.dropWhile rustIsWhitespace
    fromStrFuel (t.length + 1) t (.mk none none [] [] none) .Tag []

/-- Rust `str::trim`. -/
def trimBoth (l : List Char) : List Char :=
  ((l.dropWhile rustIsWhitespace).reverse.dropWhile rustIsWhitespace).reverse

/-- Split on top-level commas, ignoring commas inside single- or
double-quoted strings (`CommaSeparated::from_str`'s scan): returns the
segments before each comma and the remainder after the last comma. -/
def commaSplit : List Char → Option Char → List (List Char) × List Char
  | [], _ => ([], [])
  | c :: rest, some q =>
    let r := commaSplit rest (if c = q then none else some q)
    (match r.1 with
     | [] => ([], c :: r.2)
     | s :: ss => ((c :: s) :: ss, r.2))
  | c :: rest, none =>
    if c = ',' then
      let r := commaSplit rest none
      ([] :: r.1, r.2)
    else
      let r := commaSplit rest (if c = '"' ∨ c = singleQuote then some c else none)
      (match r.1 with
       | [] => ([], c :: r.2)
       | s :: ss => ((c :: s) :: ss, r.2))

/-- `CommaSeparated::<Selector>::from_str`: every segment before a comma is
trimmed and parsed (even if empty); the final segment is parsed only if
trimming leaves it non-empty (one trailing comma is tolerated). -/
def CommaSeparated.fromStr (s : List Char) :
    Except SelectorParseError (List Selector) := do
  let split := commaSplit s none
  let sels ← split.1.mapM (fun seg => Selector.fromStr (trimBoth seg))
  let lastSeg := trimBoth split.2
  if lastSeg = [] then
    pure sels
  else do
    let x ← Selector.fromStr lastSeg
    pure (sels ++ [x])

/-- Structural scan errors (lib.rs `SkimError`). -/
inductive SkimError where
  | BadQuote
  | UnclosedNode
  | UnclosedComment (content : List Char)
  | UnclosedString (attrName : List Char) (node : ParsedNode)
  | CantCloseNode (closingTag : List Char) (lastNode : Option ParsedNode)
  | BadEqSign
deriving DecidableEq

/-- Outcome of running (part of) the scan: normal value, structured error,
or a Rust panic. -/
inductive ScanResult (α : Type) where
  | ok (val : α)
  | error (e : SkimError)
  | panicked (msg : String)
deriving DecidableEq

/-- What kind of node the tag being read is (lib.rs `NodeType`). -/
inductive NodeType where
  | Opening
  | Closing
  | SelfClosing
  | None
deriving DecidableEq

/-- Which buffer the characters being read are appended to (lib.rs `WriteTo`). -/
inductive WriteTo where
  | Tag
  | AttrName
  | AttrVal
  | Content
deriving DecidableEq

/-- A pending attribute name/value pair (lib.rs `Attr`). -/
structure Attr where
  name : List Char
  value : List Char
deriving DecidableEq

/-- The mutable locals of `skim_xml`'s scan loop. -/
structure SkimState where
  stack : List ParsedNode
  current_node : ParsedNode
  current_attr : Attr
  node_type : NodeType
  writing_to : WriteTo
deriving DecidableEq

/-- The state at the start of the scan and after every completed tag. -/
def initSt (stack : List ParsedNode) : SkimState :=
  ⟨stack, ⟨[], []⟩, ⟨[], []⟩, .None, .Content⟩

/-- Rust `str::strip_prefix` on char lists. -/
def dropAfterPre : List Char → List Char → Option (List Char)
  | [], l => some l
  | _ :: _, [] => none
  | p :: ps, c :: cs => if c = p then dropAfterPre ps cs else none

/-- Rust `str::split_once` with a multi-character pattern: split at the first
occurrence of `pat`, returning the parts before and after it. -/
def splitOnceL (pat : List Char) : List Char → Option (List Char × List Char)
  | [] =>
    (match dropAfterPre pat [] with
     | some rest => some ([], rest)
     | none => none)
  | c :: cs =>
    match dropAfterPre pat (c :: cs) with
    | some rest => some ([], rest)
    | none =>
      match splitOnceL pat cs with
      | some (a, b) => some (c :: a, b)
      | none => none

/-- Rust `str::split_once` with a single-character pattern. -/
def splitOnceChar (q : Char) : List Char → Option (List Char × List Char)
  | [] => none
  | c :: cs =>
    if c = q then some ([], cs)
    else
      match splitOnceChar q cs with
      | some (a, b) => some (c :: a, b)
      | none => none

/-- Result of the inner scan that looks for `=` after whitespace ends an
attribute name. -/
inductive EqScan where
  | foundEq
  | newChar (c : Char)
  | exhausted
deriving DecidableEq

/-- The inner `while` of the whitespace arm in `AttrName` mode: skip the
whitespace characters `' '`, `'\n'`, `'\t'`; stop at `=`, at any other
character, or at end of input. -/
def scanForEq : List Char → EqScan × List Char
  | [] => (.exhausted, [])
  | c :: rest =>
    if c = '=' then (.foundEq, rest)
    else if c = ' ' ∨ c = '\n' ∨ c = '\t' then scanForEq rest
    else (.newChar c, rest)

/-- What one iteration of `skim_xml`'s character loop decides to do:
continue scanning at some remainder with an updated state, stop with a
structured error, or panic. -/
inductive StepRes where
  | cont (next : List Char) (st : SkimState)
  | err (e : SkimError)
  | panic (msg : String)
deriving DecidableEq

/-- The body of `skim_xml`'s character loop for one character `c` (with
`rest` the rest of the iterator, which the body may advance past skipped
spans): the content guard, then the `match` on `c`. -/
def flushedNode (st : SkimState) : ParsedNode :=
  if ¬ st.current_attr.name = [] then
    { st.current_node with
      attributes :=
        insertA st.current_node.attributes st.current_attr.name
          st.current_attr.value }
  else st.current_node

def skimStep (c : Char) (rest : List Char) (st : SkimState) : StepRes :=
  if st.writing_to = WriteTo.Content ∧ ¬ c = '<' then
    .cont rest st
  else if c = '<' then
    match dropAfterPre ['!', '-', '-'] rest with
    | some remaining =>
      (match splitOnceL ['-', '-', '>'] remaining with
       | some (_, rem2) =>
         .cont rem2 { st with node_type := .Opening, writing_to := .Tag }
       | none => .err (.UnclosedComment remaining))
    | none =>
      match rest with
      | '?' :: remaining =>
        (match splitOnceL ['?', '>'] remaining with
         | some (_, rem2) =>
           .cont rem2 { st with node_type := .Opening, writing_to := .Tag }
         | none => .err (.UnclosedComment remaining))
      | _ => .cont rest { st with node_type := .Opening, writing_to := .Tag }
  else if c = '/' then
    .cont rest
      { st with
        node_type := if st.current_node.tag = [] then .Closing else .SelfClosing }
  else if c = '>' then
    match st.node_type with
    | .Opening => .cont rest (initSt (st.stack ++ [flushedNode st]))
    | .SelfClosing => .cont rest (initSt (st.stack ++ [flushedNode st]).dropLast)
    | .Closing =>
      (match st.stack.getLast? with
       | some top =>
         if (flushedNode st).tag = top.tag then .cont rest (initSt st.stack.dropLast)
         else .err (.CantCloseNode (flushedNode st).tag (some top))
       | none => .err (.CantCloseNode (flushedNode st).tag none))
    | .None => .panic ("Found > with NodeType::None")
  else if rustIsWhitespace c then
    if st.node_type = NodeType.Opening then
      match st.writing_to with
      | .Tag =>
        if ¬ st.current_node.tag = [] then
          .cont rest { st with writing_to := .AttrName }
        else .cont rest st
      | .AttrName =>
        (match scanForEq rest with
         | (.foundEq, rem) => .cont rem { st with writing_to := .AttrVal }
         | (.newChar c2, rem) =>
           if ¬ st.current_attr.name = [] then
             .cont rem
               { st with
                 current_node :=
                   { st.current_node with
                     attributes :=
                       insertA st.current_node.attributes st.current_attr.name [] },
                 current_attr := ⟨[c2], []⟩ }
           else
             .cont rem
               { st with
                 current_attr :=
                   { st.current_attr with name := st.current_attr.name ++ [c2] } }
         | (.exhausted, rem) => .cont rem st)
      | _ => .cont rest st
    else .cont rest st
  else if c = '=' then
    if st.node_type = NodeType.Opening ∧ st.writing_to = WriteTo.AttrName then
      .cont rest { st with writing_to := .AttrVal }
    else .err .BadEqSign
  else if c = '"' ∨ c = singleQuote then
    match st.writing_to with
    | .AttrVal =>
      (match splitOnceChar c rest with
       | some (attrVal, remaining) =>
         .cont remaining
           { st with
             current_node :=
               { st.current_node with
                 attributes :=
                   insertA st.current_node.attributes st.current_attr.name attrVal },
             current_attr := ⟨[], []⟩,
             writing_to := .AttrName }
       | none => .err (.UnclosedString st.current_attr.name st.current_node))
    | _ => .err .BadQuote
  else
    match st.writing_to with
    | .Tag =>
      .cont rest
        { st with
          current_node := { st.current_node with tag := st.current_node.tag ++ [c] } }
    | .AttrName =>
      .cont rest
        { st with
          current_attr := { st.current_attr with name := st.current_attr.name ++ [c] } }
    | .AttrVal => .panic ("AttrVal should have not been reached")
    | .Content => .panic ("Content should have not been reached")

/-- One full run of `skim_xml`'s character loop: iterate `skimStep`,
structurally recursing on a fuel bounding the number of characters left
(each step consumes at least one character, and skipped spans only shrink
the remainder). -/
def skimFuel : Nat → List Char → SkimState → ScanResult SkimState
  | 0, _, _ => .panicked ("fuel exhausted")
  | _ + 1, [], st => .ok st
  | fuel + 1, c :: rest, st =>
    match skimStep c rest st with
    | .cont next st' => skimFuel fuel next st'
    | .err e => .error e
    | .panic m => .panicked m

/-- The character loop of `skim_xml` run to completion on `cs`. -/
def skimChars (cs : List Char) (st : SkimState) : ScanResult SkimState :=
  skimFuel (cs.length + 1) cs st

/-- `skim_xml`: parse every registered selector-group string (a parse failure
panics, modelling `.unwrap()`), scan the source, and finally fail with
`UnclosedNode` if the ancestor stack is non-empty.  The handler callbacks
return no value and cannot influence the state or the result, so only the
selector parsing of the handler keys is modelled. -/
def skim_xml (src : List Char) (keys : List (List Char)) : ScanResult Unit :=
  match keys.mapM (fun k => CommaSeparated.fromStr k) with
  | .error _ => .panicked ("called Result::unwrap on an Err value")
  | .ok _ =>
    match skimChars src (initSt []) with
    | .ok st => if st.stack.length > 0 then .error .UnclosedNode else .ok ()
    | .error e => .error e
    | .panicked m => .panicked m

/-- Whether a selector-group string parses (so that `skim_xml`'s `unwrap`
does not panic). -/
def parsesOk (k : List Char) : Bool :=
  match CommaSeparated.fromStr k with
  | .ok _ => true
  | .error _ => false

/-- The chain of combinator links of a selector, rightmost link first: each
entry pairs a combinator with the simple selector on its left side. -/
def Selector.links : Selector → List (Combinator × Selector)
  | .mk _ _ _ _ none => []
  | .mk _ _ _ _ (some (p, c)) => (c, p) :: p.links

/-- The walk the specification describes, over the flattened chain: the
stack entries are visited from the tail toward the head; a `Child` link
requires the immediately-preceding entry to satisfy the simple selector (a
gap is an immediate non-match); a `Descendant` link scans earlier entries
toward the root until one satisfies it, failing when the stack is
exhausted. -/
def specWalk : List (Combinator × Selector) → List ParsedNode → Bool
  | [], _ => true
  | (_, _) :: _, [] => false
  | (.Child, s) :: rest, n :: ns => s.match_simple n && specWalk rest ns
  | (.Descendant, s) :: rest, n :: ns =>
    if s.match_simple n then specWalk rest ns
    else specWalk ((.Descendant, s) :: rest) ns

/-- The specification's description of chain matching: the current node
(stack tail) must directly satisfy the rightmost simple selector, and the
flattened link chain must walk the remaining entries; the empty stack never
matches. -/
def specMatch (sel : Selector) (stack : List ParsedNode) : Bool :=
  match stack.reverse with
  | [] => false
  | cur :: above => sel.match_simple cur && specWalk sel.links above

/-- Length of the parent chain of a selector. -/
def chainDepth : Selector → Nat
  | .mk _ _ _ _ none => 0
  | .mk _ _ _ _ (some (p, _)) => chainDepth p + 1

/-- A character that may appear in a tag or attribute name of the
well-formedness grammar: none of the tokenizer's special characters. -/
def nameCharOk (c : Char) : Bool :=
  !(decide (c = '<') || decide (c = '>') || decide (c = '/') || decide (c = '=') ||
    decide (c = '"') || decide (c = singleQuote) || decide (c = '!') ||
    decide (c = '?') || rustIsWhitespace c)

/-- Tag names of the well-formedness grammar: non-empty, made of safe
characters. -/
def tagOk (t : List Char) : Bool := (!t.isEmpty) && t.all nameCharOk

/-- A properly quoted attribute of the grammar: non-empty safe name, single
or double quote, value free of its own quote character. -/
def attrOk : List Char × Char × List Char → Bool
  | (n, q, v) =>
    (!n.isEmpty) && n.all nameCharOk &&
      (decide (q = '"') || decide (q = singleQuote)) &&
      v.all (fun x => !(decide (x = q)))

/-- Render an attribute list the way it appears inside a tag:
` name="value"` for each attribute. -/
def renderAttrs : List (List Char × Char × List Char) → List Char
  | [] => []
  | (n, q, v) :: rest => ' ' :: (n ++ '=' :: q :: (v ++ q :: renderAttrs rest))

/-- Insert the rendered attributes into an attribute map in order. -/
def applyAttrs (m : List (List Char × List Char)) :
    List (List Char × Char × List Char) → List (List Char × List Char)
  | [] => m
  | (n, _, v) :: rest => applyAttrs (insertA m n v) rest

/-- The writing mode after a tag name and attribute list have been read. -/
def wtAfter (as : List (List Char × Char × List Char)) : WriteTo :=
  if as.isEmpty then .Tag else .AttrName

/-- The well-formedness grammar of the claim: concatenations of properly
nested, properly quoted opening/closing/self-closing tags. -/
inductive Wf : List Char → Prop where
  | nil : Wf []
  | cat : ∀ {x y : List Char}, Wf x → Wf y → Wf (x ++ y)
  | elem : ∀ {t : List Char} {as : List (List Char × Char × List Char)}
      {inner : List Char}, tagOk t = true → (∀ a ∈ as, attrOk a = true) →
      Wf inner →
      Wf (('<' :: (t ++ renderAttrs as)) ++
        '>' :: (inner ++ ('<' :: ('/' :: (t ++ ['>'])))))
  | selfc : ∀ {t : List Char} {as : List (List Char × Char × List Char)},
      tagOk t = true → (∀ a ∈ as, attrOk a = true) →
      Wf (('<' :: (t ++ renderAttrs as)) ++ ['/', '>'])

theorem splitAllChar_ne_nil (sep : Char) (v : List Char) :
    splitAllChar sep v ≠ [] := by
  induction v with
  | nil => simp [splitAllChar]
  | cons c rest ih =>
    simp only [splitAllChar]
    split
    · simp
    · match h : splitAllChar sep rest with
      | [] => exact absurd h ih
      | s :: ss => simp

theorem joinChar_splitAllChar (sep : Char) (v : List Char) :
    joinChar sep (splitAllChar sep v) = v := by
  induction v with
  | nil => simp [splitAllChar, joinChar]
  | cons c rest ih =>
    simp only [splitAllChar]
    by_cases hc : c = sep
    · subst hc
      simp only [if_pos rfl]
      match h : splitAllChar c rest with
      | [] => exact absurd h (splitAllChar_ne_nil c rest)
      | s :: ss =>
        rw [h] at ih
        simp [joinChar, ih]
    · simp only [if_neg hc]
      match h : splitAllChar sep rest with
      | [] => exact absurd h (splitAllChar_ne_nil sep rest)
      | [s] =>
        rw [h] at ih
        simp only [joinChar] at ih ⊢
        simp [ih]
      | s :: s2 :: ss =>
        rw [h] at ih
        simp only [joinChar] at ih ⊢
        simp [ih]

theorem matchFrom_noParent (t i : Option (List Char)) (cl : List (List Char))
    (ats : List (List Char × Option (List Char))) (cmb : Combinator)
    (ns : List ParsedNode) :
    Selector.matchFrom (.mk t i cl ats none) (some cmb) ns =
      specWalk [(cmb, .mk t i cl ats none)] ns := by
  cases cmb with
  | Child => cases ns <;> simp [Selector.matchFrom, specWalk]
  | Descendant =>
    induction ns with
    | nil => simp [Selector.matchFrom, specWalk, dropUntilMatch]
    | cons nd ns ih =>
      by_cases h : (Selector.mk t i cl ats none).match_simple nd
      · simp [Selector.matchFrom, specWalk, dropUntilMatch, h]
      · simp only [Selector.matchFrom, specWalk, dropUntilMatch, h] at ih ⊢
        simp only [if_neg h, Bool.false_eq_true]
        exact ih

theorem matchFrom_eq_specWalk (n : Nat) :
    ∀ p : Selector, chainDepth p ≤ n → ∀ (cmb : Combinator) (ns : List ParsedNode),
      Selector.matchFrom p (some cmb) ns = specWalk ((cmb, p) :: p.links) ns := by
  induction n with
  | zero =>
    intro p hp cmb ns
    obtain ⟨t, i, cl, ats, par⟩ := p
    cases par with
    | none => simpa [Selector.links] using matchFrom_noParent t i cl ats cmb ns
    | some pc => simp [chainDepth] at hp
  | succ n ih =>
    intro p hp cmb ns
    obtain ⟨t, i, cl, ats, par⟩ := p
    cases par with
    | none => simpa [Selector.links] using matchFrom_noParent t i cl ats cmb ns
    | some pc =>
      obtain ⟨q, c2⟩ := pc
      have hq : chainDepth q ≤ n := by
        simp only [chainDepth] at hp
        omega
      cases cmb with
      | Child =>
        cases ns with
        | nil => simp [Selector.matchFrom, specWalk]
        | cons nd ns =>
          simp [Selector.matchFrom, specWalk, Selector.links, ih q hq c2 ns]
      | Descendant =>
        induction ns with
        | nil => simp [Selector.matchFrom, specWalk, dropUntilMatch]
        | cons nd ns ihns =>
          by_cases h : (Selector.mk t i cl ats (some (q, c2))).match_simple nd
          · simp [Selector.matchFrom, specWalk, dropUntilMatch, h, Selector.links,
              ih q hq c2 ns]
          · simp only [Selector.matchFrom, specWalk, dropUntilMatch, h] at ihns ⊢
            simp only [if_neg h, Bool.false_eq_true]
            exact ihns

/-- `match_node` implements exactly the walk described by the spec. -/
theorem match_node_eq_specMatch (sel : Selector) (stack : List ParsedNode) :
    sel.match_node stack = specMatch sel stack := by
  unfold Selector.match_node specMatch
  cases h : stack.reverse with
  | nil =>
    obtain ⟨t, i, cl, ats, par⟩ := sel
    cases par with
    | none => simp [Selector.matchFrom]
    | some pc =>
      obtain ⟨q, c2⟩ := pc
      simp [Selector.matchFrom]
  | cons cur above =>
    obtain ⟨t, i, cl, ats, par⟩ := sel
    cases par with
    | none => simp [Selector.matchFrom, Selector.links, specWalk]
    | some pc =>
      obtain ⟨q, c2⟩ := pc
      simp only [Selector.matchFrom, Selector.links, specWalk]
      rw [matchFrom_eq_specWalk (chainDepth q) q le_rfl]

theorem dropAfterPre_length : ∀ (p l r : List Char), dropAfterPre p l = some r →
    r.length ≤ l.length := by
  intro p
  induction p with
  | nil =>
    intro l r h
    simp only [dropAfterPre, Option.some.injEq] at h
    exact h ▸ le_refl _
  | cons x ps ih =>
    intro l r h
    cases l with
    | nil => simp [dropAfterPre] at h
    | cons c cs =>
      simp only [dropAfterPre] at h
      split at h
      · exact le_trans (ih cs r h) (by simp)
      · exact absurd h (by simp)

theorem splitOnceL_length : ∀ (pat l a b : List Char),
    splitOnceL pat l = some (a, b) → b.length ≤ l.length := by
  intro pat l
  induction l with
  | nil =>
    intro a b h
    simp only [splitOnceL] at h
    split at h
    · next rest heq =>
      simp only [Option.some.injEq, Prod.mk.injEq] at h
      exact h.2 ▸ dropAfterPre_length pat [] rest heq
    · exact absurd h (by simp)
  | cons c cs ih =>
    intro a b h
    simp only [splitOnceL] at h
    split at h
    · next rest heq =>
      simp only [Option.some.injEq, Prod.mk.injEq] at h
      exact h.2 ▸ dropAfterPre_length pat (c :: cs) rest heq
    · split at h
      · next a2 b2 heq =>
        simp only [Option.some.injEq, Prod.mk.injEq] at h
        exact h.2 ▸ le_trans (ih a2 b2 heq) (by simp)
      · exact absurd h (by simp)

theorem splitOnceChar_length : ∀ (q : Char) (l a b : List Char),
    splitOnceChar q l = some (a, b) → b.length ≤ l.length := by
  intro q l
  induction l with
  | nil => intro a b h; simp [splitOnceChar] at h
  | cons c cs ih =>
    intro a b h
    simp only [splitOnceChar] at h
    split at h
    · simp only [Option.some.injEq, Prod.mk.injEq] at h
      exact h.2 ▸ (by simp)
    · split at h
      · next a2 b2 heq =>
        simp only [Option.some.injEq, Prod.mk.injEq] at h
        exact h.2 ▸ le_trans (ih a2 b2 heq) (by simp)
      · exact absurd h (by simp)

theorem scanForEq_length : ∀ l : List Char, (scanForEq l).2.length ≤ l.length := by
  intro l
  induction l with
  | nil => simp [scanForEq]
  | cons c cs ih =>
    simp only [scanForEq]
    split
    · simp
    · split
      · exact le_trans ih (by simp)
      · simp

theorem scanForEq_length2 (l rem : List Char) (r : EqScan)
    (h : scanForEq l = (r, rem)) : rem.length ≤ l.length := by
  have := scanForEq_length l
  rw [h] at this
  exact this

theorem le_cons_length (c : Char) (l r : List Char) (h : r.length ≤ l.length) :
    r.length ≤ (c :: l).length := by
  simp only [List.length_cons]
  omega

theorem skimStep_length (c : Char) (rest : List Char) (st : SkimState)
    (next : List Char) (st' : SkimState) (h : skimStep c rest st = .cont next st') :
    next.length ≤ rest.length := by
  unfold skimStep at h
  repeat' split at h
  all_goals try (exact StepRes.noConfusion h)
  all_goals injection h with h1 h2
  all_goals subst h1
  all_goals try (exact le_refl _)
  all_goals solve_by_elim [splitOnceL_length, dropAfterPre_length,
    scanForEq_length2, splitOnceChar_length, le_trans, le_cons_length]

theorem skimFuel_congr : ∀ (f : Nat) (cs : List Char) (st : SkimState),
    cs.length < f → skimFuel f cs st = skimFuel (cs.length + 1) cs st := by
  intro f
  induction f using Nat.strong_induction_on with
  | _ f ih =>
    intro cs st hlen
    match f, cs with
    | 0, cs => omega
    | f + 1, [] => rfl
    | f + 1, c :: rest =>
      have hrest : rest.length < f := by simp at hlen; omega
      show skimFuel (f + 1) (c :: rest) st = skimFuel (rest.length + 1 + 1) (c :: rest) st
      rw [skimFuel.eq_3, skimFuel.eq_3]
      cases h : skimStep c rest st with
      | cont next st2 =>
        have hn : next.length ≤ rest.length := skimStep_length c rest st next st2 h
        dsimp only
        rw [ih f (by omega) next st2 (by omega),
          ih (rest.length + 1) (by omega) next st2 (by omega)]
      | err e => rfl
      | panic m => rfl

/-- One unfolding of the scan loop in terms of `skimStep`. -/
theorem skimChars_cons (c : Char) (rest : List Char) (st : SkimState) :
    skimChars (c :: rest) st =
      (match skimStep c rest st with
       | .cont next st' => skimChars next st'
       | .err e => .error e
       | .panic m => .panicked m) := by
  show skimFuel ((c :: rest).length + 1) (c :: rest) st = _
  simp only [List.length_cons]
  rw [skimFuel.eq_3]
  cases h : skimStep c rest st with
  | cont next st2 =>
    have hn : next.length ≤ rest.length := skimStep_length c rest st next st2 h
    dsimp only
    exact skimFuel_congr (rest.length + 1) next st2 (by omega)
  | err e => rfl
  | panic m => rfl

/-- The `>` step for a closing tag, in general: pop the stack top; succeed
only when the tags agree, otherwise produce the mismatched-closing-tag
error carrying the attempted tag and (when present) the actual top. -/
theorem closing_gt_step (stack : List ParsedNode) (cn : ParsedNode) (ca : Attr)
    (rest : List Char) :
    skimChars ('>' :: rest) ⟨stack, cn, ca, .Closing, .Tag⟩ =
      (match stack.getLast? with
       | none => .error (.CantCloseNode cn.tag none)
       | some top =>
         if cn.tag = top.tag then skimChars rest (initSt stack.dropLast)
         else .error (.CantCloseNode cn.tag (some top))) := by
  cases hl : stack.getLast? with
  | none =>
    by_cases hca : ca.name = [] <;>
      simp [skimChars, skimFuel, skimStep, flushedNode, hca, hl]
  | some top =>
    by_cases hca : ca.name = [] <;> by_cases ht : cn.tag = top.tag <;>
      simp [skimChars, skimFuel, skimStep, flushedNode, hca, hl, ht]

theorem nameCharOk_facts (c : Char) (h : nameCharOk c = true) :
    ¬c = '<' ∧ ¬c = '>' ∧ ¬c = '/' ∧ ¬c = '=' ∧ ¬c = '"' ∧ ¬c = singleQuote ∧
      ¬c = '!' ∧ ¬c = '?' ∧ rustIsWhitespace c = false := by
  simp only [nameCharOk, Bool.not_eq_true', Bool.or_eq_false_iff,
    decide_eq_false_iff_not] at h
  exact ⟨h.1.1.1.1.1.1.1.1, h.1.1.1.1.1.1.1.2, h.1.1.1.1.1.1.2, h.1.1.1.1.1.2,
    h.1.1.1.1.2, h.1.1.1.2, h.1.1.2, h.1.2, h.2⟩

theorem not_space_chars (c : Char) (h : rustIsWhitespace c = false) :
    ¬c = ' ' ∧ ¬c = '\n' ∧ ¬c = '\t' := by
  refine ⟨?_, ?_, ?_⟩ <;> rintro rfl <;> simp [rustIsWhitespace] at h

theorem step_genericTag (c : Char) (h : nameCharOk c = true) (rest : List Char)
    (stack : List ParsedNode) (cn : ParsedNode) (ca : Attr) (nt : NodeType) :
    skimChars (c :: rest) ⟨stack, cn, ca, nt, .Tag⟩ =
      skimChars rest ⟨stack, ⟨cn.tag ++ [c], cn.attributes⟩, ca, nt, .Tag⟩ := by
  obtain ⟨h1, h2, h3, h4, h5, h6, h7, h8, h9⟩ := nameCharOk_facts c h
  rw [skimChars_cons]
  simp [skimStep, h1, h2, h3, h4, h5, h6, h9]

theorem step_genericAttrName (c : Char) (h : nameCharOk c = true) (rest : List Char)
    (stack : List ParsedNode) (cn : ParsedNode) (ca : Attr) (nt : NodeType) :
    skimChars (c :: rest) ⟨stack, cn, ca, nt, .AttrName⟩ =
      skimChars rest ⟨stack, cn, ⟨ca.name ++ [c], ca.value⟩, nt, .AttrName⟩ := by
  obtain ⟨h1, h2, h3, h4, h5, h6, h7, h8, h9⟩ := nameCharOk_facts c h
  rw [skimChars_cons]
  simp [skimStep, h1, h2, h3, h4, h5, h6, h9]

theorem tagChars_steps (t : List Char) (ht : t.all nameCharOk = true) :
    ∀ (rest : List Char) (stack : List ParsedNode) (cn : ParsedNode) (ca : Attr)
      (nt : NodeType),
      skimChars (t ++ rest) ⟨stack, cn, ca, nt, .Tag⟩ =
        skimChars rest ⟨stack, ⟨cn.tag ++ t, cn.attributes⟩, ca, nt, .Tag⟩ := by
  induction t with
  | nil => intro rest stack cn ca nt; simp
  | cons c t ih =>
    intro rest stack cn ca nt
    simp only [List.all_cons, Bool.and_eq_true] at ht
    rw [List.cons_append, step_genericTag c ht.1, ih ht.2]
    simp

theorem attrNameChars_steps (n : List Char) (hn : n.all nameCharOk = true) :
    ∀ (rest : List Char) (stack : List ParsedNode) (cn : ParsedNode) (ca : Attr)
      (nt : NodeType),
      skimChars (n ++ rest) ⟨stack, cn, ca, nt, .AttrName⟩ =
        skimChars rest ⟨stack, cn, ⟨ca.name ++ n, ca.value⟩, nt, .AttrName⟩ := by
  induction n with
  | nil => intro rest stack cn ca nt; simp
  | cons c n ih =>
    intro rest stack cn ca nt
    simp only [List.all_cons, Bool.and_eq_true] at hn
    rw [List.cons_append, step_genericAttrName c hn.1, ih hn.2]
    simp

theorem step_lt (c0 : Char) (h1 : ¬c0 = '!') (h2 : ¬c0 = '?') (r : List Char)
    (st : SkimState) :
    skimChars ('<' :: c0 :: r) st =
      skimChars (c0 :: r) { st with node_type := .Opening, writing_to := .Tag } := by
  rw [skimChars_cons]
  simp [skimStep, dropAfterPre, h1, h2]

theorem step_wsTag (rest : List Char) (stack : List ParsedNode) (cn : ParsedNode)
    (ca : Attr) (h : ¬cn.tag = []) :
    skimChars (' ' :: rest) ⟨stack, cn, ca, .Opening, .Tag⟩ =
      skimChars rest ⟨stack, cn, ca, .Opening, .AttrName⟩ := by
  rw [skimChars_cons]
  simp [skimStep, h, rustIsWhitespace]

theorem step_wsAttrNewChar (c0 : Char) (hc : nameCharOk c0 = true) (r : List Char)
    (stack : List ParsedNode) (cn : ParsedNode) (ca : Attr) (hca : ca.name = []) :
    skimChars (' ' :: c0 :: r) ⟨stack, cn, ca, .Opening, .AttrName⟩ =
      skimChars r ⟨stack, cn, ⟨[c0], ca.value⟩, .Opening, .AttrName⟩ := by
  obtain ⟨h1, h2, h3, h4, h5, h6, h7, h8, h9⟩ := nameCharOk_facts c0 hc
  obtain ⟨hs1, hs2, hs3⟩ := not_space_chars c0 h9
  rw [skimChars_cons]
  simp [skimStep, rustIsWhitespace, scanForEq, h4, hs1, hs2, hs3, hca]

theorem step_eq (rest : List Char) (stack : List ParsedNode) (cn : ParsedNode)
    (ca : Attr) :
    skimChars ('=' :: rest) ⟨stack, cn, ca, .Opening, .AttrName⟩ =
      skimChars rest ⟨stack, cn, ca, .Opening, .AttrVal⟩ := by
  rw [skimChars_cons]
  simp [skimStep, rustIsWhitespace]

theorem splitOnceChar_exact (q : Char) (v : List Char) (hv : ∀ x ∈ v, ¬x = q)
    (rest : List Char) :
    splitOnceChar q (v ++ q :: rest) = some (v, rest) := by
  induction v with
  | nil => simp [splitOnceChar]
  | cons c v ih =>
    have hc : ¬c = q := hv c (by simp)
    simp only [List.cons_append, splitOnceChar, if_neg hc, List.append_eq]
    rw [ih (fun x hx => hv x (by simp [hx]))]

theorem step_quote (q : Char) (hq : q = '"' ∨ q = singleQuote) (v : List Char)
    (hv : ∀ x ∈ v, ¬x = q) (rest : List Char) (stack : List ParsedNode)
    (cn : ParsedNode) (ca : Attr) (nt : NodeType) :
    skimChars (q :: (v ++ q :: rest)) ⟨stack, cn, ca, nt, .AttrVal⟩ =
      skimChars rest
        ⟨stack, ⟨cn.tag, insertA cn.attributes ca.name v⟩, ⟨[], []⟩, nt,
          .AttrName⟩ := by
  rcases hq with hq | hq <;> subst hq
  · rw [skimChars_cons]
    simp [skimStep, rustIsWhitespace, splitOnceChar_exact _ v hv rest]
  · have e1 : ¬singleQuote = '<' := by decide
    have e2 : ¬singleQuote = '/' := by decide
    have e3 : ¬singleQuote = '>' := by decide
    have e4 : rustIsWhitespace singleQuote = false := by decide
    have e5 : ¬singleQuote = '=' := by decide
    rw [skimChars_cons]
    simp [skimStep, e1, e2, e3, e4, e5, splitOnceChar_exact _ v hv rest]

theorem step_gtOpening (rest : List Char) (stack : List ParsedNode)
    (cn : ParsedNode) (ca : Attr) (hca : ca.name = []) (wt : WriteTo)
    (hwt : wt = WriteTo.Tag ∨ wt = WriteTo.AttrName) :
    skimChars ('>' :: rest) ⟨stack, cn, ca, .Opening, wt⟩ =
      skimChars rest (initSt (stack ++ [cn])) := by
  rw [skimChars_cons]
  rcases hwt with hwt | hwt <;> subst hwt <;>
    simp [skimStep, flushedNode, hca]

theorem step_gtSelfClosing (rest : List Char) (stack : List ParsedNode)
    (cn : ParsedNode) (ca : Attr) (hca : ca.name = []) (wt : WriteTo)
    (hwt : wt = WriteTo.Tag ∨ wt = WriteTo.AttrName) :
    skimChars ('>' :: rest) ⟨stack, cn, ca, .SelfClosing, wt⟩ =
      skimChars rest (initSt stack) := by
  rw [skimChars_cons]
  rcases hwt with hwt | hwt <;> subst hwt <;>
    simp [skimStep, flushedNode, hca]

theorem step_slashSelf (rest : List Char) (stack : List ParsedNode)
    (cn : ParsedNode) (ca : Attr) (nt : NodeType) (wt : WriteTo)
    (hwt : wt = WriteTo.Tag ∨ wt = WriteTo.AttrName) (h : ¬cn.tag = []) :
    skimChars ('/' :: rest) ⟨stack, cn, ca, nt, wt⟩ =
      skimChars rest ⟨stack, cn, ca, .SelfClosing, wt⟩ := by
  rw [skimChars_cons]
  rcases hwt with hwt | hwt <;> subst hwt <;> simp [skimStep, h]

theorem step_slashClosing (rest : List Char) (stack : List ParsedNode)
    (ca : Attr) (wt : WriteTo) (hwt : wt = WriteTo.Tag ∨ wt = WriteTo.AttrName)
    (cn : ParsedNode) (h : cn.tag = []) :
    skimChars ('/' :: rest) ⟨stack, cn, ca, .Opening, wt⟩ =
      skimChars rest ⟨stack, cn, ca, .Closing, wt⟩ := by
  rw [skimChars_cons]
  rcases hwt with hwt | hwt <;> subst hwt <;> simp [skimStep, h]

theorem wtAfter_cases (as : List (List Char × Char × List Char)) :
    wtAfter as = WriteTo.Tag ∨ wtAfter as = WriteTo.AttrName := by
  cases as <;> simp [wtAfter]

theorem attrOk_facts (n : List Char) (q : Char) (v : List Char)
    (h : attrOk (n, q, v) = true) :
    ¬n = [] ∧ n.all nameCharOk = true ∧ (q = '"' ∨ q = singleQuote) ∧
      ∀ x ∈ v, ¬x = q := by
  simp only [attrOk, Bool.and_eq_true, Bool.not_eq_true', List.isEmpty_eq_false,
    Bool.or_eq_true, decide_eq_true_eq, List.all_eq_true] at h
  refine ⟨?_, ?_, h.1.2, ?_⟩
  · simpa using h.1.1.1
  · simp only [List.all_eq_true]
    exact h.1.1.2
  · intro x hx
    simpa using h.2 x hx

/-- Reading one ` name=qvalueq` attribute from `AttrName` mode with an empty
pending attribute commits it into the node. -/
theorem attr_body_steps (n : List Char) (hn : n.all nameCharOk = true) (q : Char)
    (hq : q = '"' ∨ q = singleQuote) (v : List Char) (hv : ∀ x ∈ v, ¬x = q)
    (rest : List Char) (stack : List ParsedNode) (cn : ParsedNode)
    (p pv : List Char) :
    skimChars (n ++ '=' :: q :: (v ++ q :: rest))
        ⟨stack, cn, ⟨p, pv⟩, .Opening, .AttrName⟩ =
      skimChars rest
        ⟨stack, ⟨cn.tag, insertA cn.attributes (p ++ n) v⟩, ⟨[], []⟩, .Opening,
          .AttrName⟩ := by
  rw [attrNameChars_steps n hn, step_eq, step_quote q hq v hv]

/-- Reading a whole rendered attribute list from `AttrName` mode. -/
theorem attrs_loop (as : List (List Char × Char × List Char))
    (has : ∀ a ∈ as, attrOk a = true) :
    ∀ (rest : List Char) (stack : List ParsedNode) (cn : ParsedNode),
      skimChars (renderAttrs as ++ rest) ⟨stack, cn, ⟨[], []⟩, .Opening, .AttrName⟩ =
        skimChars rest
          ⟨stack, ⟨cn.tag, applyAttrs cn.attributes as⟩, ⟨[], []⟩, .Opening,
            .AttrName⟩ := by
  induction as with
  | nil => intro rest stack cn; simp [renderAttrs, applyAttrs]
  | cons a as ih =>
    intro rest stack cn
    obtain ⟨n, q, v⟩ := a
    obtain ⟨hne, hn, hq, hv⟩ := attrOk_facts n q v (has _ (by simp))
    match n, hne with
    | c0 :: n1, _ =>
      simp only [List.all_cons, Bool.and_eq_true] at hn
      have : renderAttrs ((c0 :: n1, q, v) :: as) ++ rest =
          ' ' :: c0 :: (n1 ++ '=' :: q :: (v ++ q :: (renderAttrs as ++ rest))) := by
        simp [renderAttrs]
      rw [this, step_wsAttrNewChar c0 hn.1 _ _ _ _ rfl,
        attr_body_steps n1 hn.2 q hq v hv]
      rw [ih (fun a ha => has a (by simp [ha]))]
      simp [applyAttrs]

/-- Reading `<tag attrs` from content mode builds the node. -/
theorem open_tag_steps (t : List Char) (ht : tagOk t = true)
    (as : List (List Char × Char × List Char)) (has : ∀ a ∈ as, attrOk a = true)
    (rest : List Char) (stack : List ParsedNode) :
    skimChars (('<' :: (t ++ renderAttrs as)) ++ rest) (initSt stack) =
      skimChars rest
        ⟨stack, ⟨t, applyAttrs [] as⟩, ⟨[], []⟩, .Opening, wtAfter as⟩ := by
  simp only [tagOk, Bool.and_eq_true, Bool.not_eq_true',
    List.isEmpty_eq_false] at ht
  obtain ⟨htne, htall⟩ := ht
  match t, htne with
  | c0 :: t1, _ =>
    simp only [List.all_cons, Bool.and_eq_true] at htall
    obtain ⟨h1, h2, h3, h4, h5, h6, h7, h8, h9⟩ := nameCharOk_facts c0 htall.1
    have : ('<' :: ((c0 :: t1) ++ renderAttrs as)) ++ rest =
        '<' :: c0 :: (t1 ++ (renderAttrs as ++ rest)) := by simp
    rw [this, step_lt c0 h7 h8, step_genericTag c0 htall.1,
      tagChars_steps t1 (by simp only [List.all_eq_true] at htall ⊢; exact htall.2)]
    simp only [initSt, List.nil_append]
    cases as with
    | nil => simp [renderAttrs, applyAttrs, wtAfter]
    | cons a as2 =>
      obtain ⟨n, q, v⟩ := a
      obtain ⟨hne, hn, hq, hv⟩ := attrOk_facts n q v (has _ (by simp))
      have hrw : renderAttrs ((n, q, v) :: as2) ++ rest =
          ' ' :: ((n ++ '=' :: q :: (v ++ q :: (renderAttrs as2 ++ rest)))) := by
        simp [renderAttrs]
      rw [hrw, step_wsTag _ _ _ _ (by simp),
        attr_body_steps n hn q hq v hv,
        attrs_loop as2 (fun a ha => has a (by simp [ha]))]
      simp [applyAttrs, wtAfter]

/-- Scanning a well-formed fragment from content mode consumes it, fires
only balanced pushes and pops, and returns to content mode with the same
stack. -/
theorem skim_wf_append {w : List Char} (h : Wf w) :
    ∀ (rest : List Char) (stack : List ParsedNode),
      skimChars (w ++ rest) (initSt stack) = skimChars rest (initSt stack) := by
  induction h with
  | nil => intro rest stack; simp
  | cat hx hy ihx ihy => intro rest stack; rw [List.append_assoc, ihx, ihy]
  | @elem t as inner ht has hi ih =>
    intro rest stack
    have hrw : (('<' :: (t ++ renderAttrs as)) ++
          '>' :: (inner ++ ('<' :: ('/' :: (t ++ ['>']))))) ++ rest =
        ('<' :: (t ++ renderAttrs as)) ++
          ('>' :: (inner ++ ('<' :: ('/' :: (t ++ '>' :: rest))))) := by
      simp
    rw [hrw, open_tag_steps t ht as has,
      step_gtOpening _ _ _ _ rfl _ (wtAfter_cases as),
      ih, step_lt '/' (by decide) (by decide),
      step_slashClosing _ _ _ _ (Or.inl rfl) _ rfl,
      tagChars_steps t (by
        simp only [tagOk, Bool.and_eq_true] at ht
        exact ht.2),
      closing_gt_step]
    simp [initSt, List.getLast?_concat, List.dropLast_concat]
  | @selfc t as ht has =>
    intro rest stack
    have hrw : (('<' :: (t ++ renderAttrs as)) ++ ['/', '>']) ++ rest =
        ('<' :: (t ++ renderAttrs as)) ++ ('/' :: ('>' :: rest)) := by simp
    have htne : ¬(t : List Char) = [] := by
      simp only [tagOk, Bool.and_eq_true, Bool.not_eq_true',
        List.isEmpty_eq_false] at ht
      simpa using ht.1
    rw [hrw, open_tag_steps t ht as has,
      step_slashSelf _ _ _ _ _ _ (wtAfter_cases as) (by simpa using htne),
      step_gtSelfClosing _ _ _ _ rfl _ (wtAfter_cases as)]

theorem mapM_ok_of_parsesOk : ∀ keys : List (List Char),
    (∀ k ∈ keys, parsesOk k = true) →
    ∃ l, keys.mapM (fun k => CommaSeparated.fromStr k) = Except.ok l := by
  intro keys h
  induction keys with
  | nil => exact ⟨[], rfl⟩
  | cons k ks ih =>
    have hk := h k (by simp)
    obtain ⟨l, hl⟩ := ih (fun k2 hk2 => h k2 (by simp [hk2]))
    unfold parsesOk at hk
    cases hck : CommaSeparated.fromStr k with
    | ok v =>
      refine ⟨v :: l, ?_⟩
      rw [List.mapM_cons, hck, hl]
      rfl
    | error e => rw [hck] at hk; simp at hk

/-- C1: `Selector::match_node` walks the selector chain right-to-left while
walking the ancestor stack (root first, current last) from its tail toward
its head: the current node must directly satisfy the rightmost simple
selector, a `Child` link requires the immediately-preceding stack entry to
satisfy the next simple selector, and a `Descendant` link scans earlier
entries toward the root, failing when the stack is exhausted (this is
`specMatch`/`specWalk`); in particular, for the stack
`[tag3 (root), tag2, tag (current)]`, the selectors `"tag3 tag"` and
`"tag3 > tag2 > tag"` match while `"tag3 > tag"` does not. -/
theorem C1_combinator_matching :
    (∀ (sel : Selector) (stack : List ParsedNode),
        sel.match_node stack = specMatch sel stack) ∧
    (Selector.fromStr ("tag3 tag".data)).map
        (fun s => s.match_node
          [⟨"tag3".data, []⟩, ⟨"tag2".data, []⟩, ⟨"tag".data, []⟩]) = .ok true ∧
    (Selector.fromStr ("tag3 > tag2 > tag".data)).map
        (fun s => s.match_node
          [⟨"tag3".data, []⟩, ⟨"tag2".data, []⟩, ⟨"tag".data, []⟩]) = .ok true ∧
    (Selector.fromStr ("tag3 > tag".data)).map
        (fun s => s.match_node
          [⟨"tag3".data, []⟩, ⟨"tag2".data, []⟩, ⟨"tag".data, []⟩]) = .ok false :=
  ⟨match_node_eq_specMatch, rfl, rfl, rfl⟩

/-- C2: for every XML text generated by the grammar `Wf` — concatenations of
properly nested, properly quoted opening/closing/self-closing tags — and
any handler keys whose selector groups parse, `skim_xml` returns success,
and the scan ends in the initial content state with an empty ancestor
stack. -/
theorem C2_wellformed_scan_ok (w : List Char) (keys : List (List Char))
    (hw : Wf w) (hk : ∀ k ∈ keys, parsesOk k = true) :
    skim_xml w keys = .ok () ∧ skimChars w (initSt []) = .ok (initSt []) := by
  have hscan : skimChars w (initSt []) = .ok (initSt []) := by
    have h2 := skim_wf_append hw [] []
    rw [List.append_nil] at h2
    exact h2.trans rfl
  refine ⟨?_, hscan⟩
  unfold skim_xml
  obtain ⟨l, hl⟩ := mapM_ok_of_parsesOk keys hk
  rw [hl, hscan]
  simp [initSt]

/-- C2 witness: the concrete well-formed input `<a/>` with the parsing
handler key `a` scans successfully with an empty final stack. -/
theorem C2_wellformed_scan_ok_witness :
    skim_xml ("<a/>".data) [("a".data)] = .ok () ∧
    skimChars ("<a/>".data) (initSt []) = .ok (initSt []) := by
  have hw : Wf ("<a/>".data) := @Wf.selfc ("a".data) [] (by decide) (by simp)
  exact C2_wellformed_scan_ok ("<a/>".data) [("a".data)] hw (by decide)

/-- C3: an opening tag never closed leaves the stack non-empty and
`skim_xml` reports `UnclosedNode`; a closing tag met on an empty stack
reports `CantCloseNode` with the attempted name and no node; one whose name
differs from the popped stack top reports `CantCloseNode` with the
attempted name and the actual top.  The last conjunct states the closing
`>` step in general: for any stack and any closing node, the scan pops the
last stack entry, succeeds only on a tag match, and otherwise produces
exactly these errors. -/
theorem C3_unbalanced_tag_errors :
    skim_xml ("<a>".data) [] = .error .UnclosedNode ∧
    skim_xml ("</a>".data) [] = .error (.CantCloseNode ("a".data) none) ∧
    skim_xml ("<a></b>".data) [] =
      .error (.CantCloseNode ("b".data) (some ⟨"a".data, []⟩)) ∧
    (∀ (stack : List ParsedNode) (cn : ParsedNode) (ca : Attr) (rest : List Char),
      skimChars ('>' :: rest) ⟨stack, cn, ca, .Closing, .Tag⟩ =
        (match stack.getLast? with
         | none => .error (.CantCloseNode cn.tag none)
         | some top =>
           if cn.tag = top.tag then skimChars rest (initSt stack.dropLast)
           else .error (.CantCloseNode cn.tag (some top)))) := by
  exact ⟨rfl, rfl, rfl, fun stack cn ca rest => closing_gt_step stack cn ca rest⟩

/-- C4 counterexample: registering a handler under the selector-group string
`"*"` does not fire for every node — it makes `skim_xml` panic at the
selector-parse `unwrap` even on a well-formed input, because `'*'` is
rejected as an unknown prefix character. -/
theorem C4_wildcard_counterexample :
    skim_xml ("<a/>".data) [("*".data)] =
      .panicked ("called Result::unwrap on an Err value") := rfl

/-- C4 amended: there is no wildcard support: parsing the group string `"*"`
fails with the unknown-prefix error (`'*'` is ASCII punctuation other than
`-`/`_`), and therefore `skim_xml` called with a `"*"`-keyed handler panics
at the parse `unwrap` before scanning any input, for every source text; the
handler never fires. -/
theorem C4_wildcard_amended :
    CommaSeparated.fromStr ("*".data) = .error .UnknownPrefixChar ∧
    ∀ src : List Char,
      skim_xml src [("*".data)] =
        .panicked ("called Result::unwrap on an Err value") :=
  ⟨rfl, fun _ => rfl⟩

/-- C5: at the failing input `<tag a=1>` (an unquoted attribute value) the
tokenizer's generic-character catch-all IS reached while the writing state
is `AttrVal`, and the scan panics — contradicting the claim (and the
source's own comment) that this branch is unreachable for every input. -/
theorem C5_attrval_panic_reachable :
    skim_xml ("<tag a=1>".data) [] =
      .panicked ("AttrVal should have not been reached") := rfl

/-- C6 counterexample: a repeated class name in one simple selector is not a
parse error: `".a.a"` parses successfully (to the class set containing just
`a`), where the claim demands a structured parse failure. -/
theorem C6_duplicate_counterexample :
    Selector.fromStr (".a.a".data) = .ok (.mk none none ["a".data] [] none) := rfl

/-- C6 amended: duplicate class names and duplicate attribute names within a
simple selector are silently merged, not rejected: the class set deduplicates
(`".a.a"` ⇒ classes `{a}`), a repeated presence-only attribute collapses
(`"[x][x]"` ⇒ `{x: presence}`), and a repeated valued attribute keeps the
last value (`"[x=1][x=2]"` ⇒ `{x: "2"}`). -/
theorem C6_duplicates_silently_merged :
    Selector.fromStr (".a.a".data) = .ok (.mk none none ["a".data] [] none) ∧
    Selector.fromStr ("[x][x]".data) =
      .ok (.mk none none [] [("x".data, none)] none) ∧
    Selector.fromStr ("[x=1][x=2]".data) =
      .ok (.mk none none [] [("x".data, some ("2".data))] none) :=
  ⟨rfl, rfl, rfl⟩

/-- C7: scanning `<tag a="1" b='2' c>` commits attributes
`{a: "1", b: "2", c: ""}` (the quote style does not matter and the boolean
attribute `c` gets the empty value), and scanning `<tag a="1" a="2">`
commits `{a: "2"}`: a duplicate attribute name overwrites (last write wins). -/
theorem C7_attribute_parsing :
    skimChars (("<tag a=\"1\" b=".data) ++
        [singleQuote, '2', singleQuote, ' ', 'c', '>']) (initSt []) =
      .ok (initSt [⟨"tag".data,
        [("a".data, "1".data), ("b".data, "2".data), ("c".data, [])]⟩]) ∧
    skimChars ("<tag a=\"1\" a=\"2\">".data) (initSt []) =
      .ok (initSt [⟨"tag".data, [("a".data, "2".data)]⟩]) :=
  ⟨rfl, rfl⟩

/-- C8 counterexample: a selector string ending in bare whitespace with no
following token does not fail: `"tag "` parses successfully to the plain
`tag` selector, where the claim demands the dangling-combinator error. -/
theorem C8_trailing_whitespace_counterexample :
    Selector.fromStr ("tag ".data) = .ok (.mk (some ("tag".data)) none [] [] none) :=
  rfl

/-- C8 amended: a trailing `>` with nothing on its right fails with the
dangling-combinator error (`"tag > "`), but trailing bare whitespace is
tolerated: `"tag "` returns the selector parsed so far. -/
theorem C8_dangling_combinator_amended :
    Selector.fromStr ("tag > ".data) = .error .NoOtherSideCombinator ∧
    Selector.fromStr ("tag ".data) = .ok (.mk (some ("tag".data)) none [] [] none) :=
  ⟨rfl, rfl⟩

/-- C9 counterexample: for a node whose `class` attribute is present with the
empty-string value, `class_list()` is NOT the empty set: Rust's
`"".split(' ')` yields one empty token, so the result is the singleton set
containing the empty token. -/
theorem C9_empty_class_counterexample :
    (ParsedNode.mk ("t".data) [(classKey, [])]).class_list = [[]] ∧
    ¬ (ParsedNode.mk ("t".data) [(classKey, [])]).class_list = [] :=
  ⟨rfl, by decide⟩

/-- C9 amended: `class_list()` is the `class` attribute value split on
single spaces (the tokens reassemble to the exact value); a missing `class`
attribute yields the empty set, but an empty-string value yields the
singleton set containing the empty token, not the empty set. -/
theorem C9_class_list_amended :
    (∀ t : List Char, (ParsedNode.mk t []).class_list = []) ∧
    (∀ (t v : List Char) (rest : List (List Char × List Char)),
        (ParsedNode.mk t ((classKey, v) :: rest)).class_list = splitAllChar ' ' v) ∧
    (∀ v : List Char, joinChar ' ' (splitAllChar ' ' v) = v) ∧
    (ParsedNode.mk ("t".data) [(classKey, [])]).class_list = [[]] :=
  ⟨fun _ => rfl, fun _ _ _ => rfl, joinChar_splitAllChar ' ', rfl⟩

/-- C10: matching any selector chain, and hence any selector group, against
the empty ancestor stack returns `false` — even for the unconstrained
selector `Selector.empty`: the very first comparison always consumes one
stack entry. -/
theorem C10_empty_stack_never_matches :
    (∀ sel : Selector, sel.match_node [] = false) ∧
    (∀ sels : List Selector, CommaSeparated.match_node sels [] = false) ∧
    Selector.empty.match_node [] = false := by
  have base : ∀ sel : Selector, sel.match_node [] = false := by
    intro sel
    obtain ⟨t, i, cl, ats, par⟩ := sel
    cases par with
    | none => rfl
    | some pc =>
      obtain ⟨q, c⟩ := pc
      rfl
  refine ⟨base, ?_, base _⟩
  intro sels
  simp only [CommaSeparated.match_node, List.any_eq_false]
  intro s _
  simp [base s]
